import Mathlib

/-
Verification of the Box operation pipeline of the objectbox-go repository
(objectbox/box.go): a shallow embedding of the identifier-assignment logic,
the chunked bulk-put pipeline, the dual-strategy bulk-read paths, the pooled
encoder, and the many-to-many relation synchronization, together with
theorems checking the natural-language specification against the code.

The storage engine and the per-type object binding sit behind a foreign
function boundary; they are modelled as explicit parameters (allocation
oracles, load/decode functions, stored link sets).  Identifiers are uint64
in the source; they are modelled as Nat because every operation in scope
only passes them through or adds small in-range offsets produced by the
engine allocator (no arithmetic that could realistically wrap).
-/

namespace ObjectboxGo

/-- The binding view of an object relevant to id assignment: `GetId` reads
this field, `SetId` writes it; 0 means "unassigned" (box.go uses uint64). -/
structure Obj where
  id : Nat
deriving DecidableEq, Repr

/-- Chunk size used by PutMany (box.go line 271): the limit currently
enforced by obx_box_ids_for_put. -/
def chunkSize : Nat := 10000

/-- Number of objects in the list whose id is 0, i.e. the length of Go's
indexesNewObjects collected by the first pass of putManyObjects
(box.go lines 317-334). -/
def numNew : List Obj → Nat
  | [] => 0
  | o :: os => (if o.id = 0 then 1 else 0) + numNew os

/-- The out-ids of one chunk, as computed by putManyObjects
(box.go lines 323-343): an object with a nonzero id keeps it; the j-th
zero-id object of the chunk receives firstNewId + j.  The two index passes
of the Go code (recording nonzero ids, then filling indexesNewObjects with
firstNewId + i) are merged into a single pass carrying k, the number of
zero-id objects already seen. -/
def fillChunkIds (firstNewId : Nat) : Nat → List Obj → List Nat
  | _, [] => []
  | k, o :: os =>
    if o.id > 0 then o.id :: fillChunkIds firstNewId k os
    else (firstNewId + k) :: fillChunkIds firstNewId (k + 1) os

/-- Model of putManyObjects (box.go lines 312-392) restricted to the id
computation of one chunk.  `alloc callIdx n` is the firstId handed out by
the n-sized obx_box_ids_for_put engine call number callIdx (idsForPut,
box.go lines 128-142); idsForPut with count 0 returns 0 without an engine
call (box.go lines 129-131), so the call counter only advances when the
chunk contains at least one new object.  Returns the chunk out-ids and the
updated engine-call counter. -/
def putManyObjects (alloc : Nat → Nat → Nat) (callIdx : Nat) (chunk : List Obj) :
    List Nat × Nat :=
  let n := numNew chunk
  let firstNewId := if n = 0 then 0 else alloc callIdx n
  (fillChunkIds firstNewId 0 chunk, if n = 0 then callIdx else callIdx + 1)

/-- The chunk loop of PutMany (box.go lines 269-288): slices the input into
chunks of chunkSize (start = c*chunkSize, end = min (start+chunkSize) count)
and runs putManyObjects on each, concatenating the per-chunk out-ids. -/
def putManyIds (alloc : Nat → Nat → Nat) (callIdx : Nat) (objs : List Obj) :
    List Nat :=
  if h : objs = [] then []
  else
    let pr := putManyObjects alloc callIdx (objs.take chunkSize)
    pr.1 ++ putManyIds alloc pr.2 (objs.drop chunkSize)
termination_by objs.length
decreasing_by
  rw [List.length_drop]
  exact Nat.sub_lt (List.length_pos.mpr h) (by decide)

/-- Model of PutMany (box.go lines 254-307) on the successful execution
path (supportsResultArray branch): the returned ids slice.  The count = 0
early return (box.go lines 259-261) coincides with the empty chunk loop.
An engine or binding failure inside the transaction aborts it and makes
PutMany return nil ids instead (box.go lines 302-304); that error path is
outside this ids computation. -/
def PutMany (alloc : Nat → Nat → Nat) (objs : List Obj) : List Nat :=
  putManyIds alloc 0 objs

/-- The chunk holding absolute input position i: objects start..end of the
c-th iteration of the PutMany chunk loop. -/
def chunkAt (objs : List Obj) (c : Nat) : List Obj :=
  (objs.drop (chunkSize * c)).take chunkSize

/-- How many obx_box_ids_for_put engine calls the chunk loop has issued
before reaching chunk c: one per earlier chunk that contains at least one
zero-id object. -/
def allocCallsBefore (objs : List Obj) : Nat → Nat
  | 0 => 0
  | c + 1 =>
    (if numNew (objs.take chunkSize) = 0 then 0 else 1) +
      allocCallsBefore (objs.drop chunkSize) c

theorem getD_take_of_lt {α : Type} (n i : Nat) (d : α) (l : List α) (h : i < n) :
    (l.take n).getD i d = l.getD i d := by
  rw [List.getD_eq_getElem?_getD, List.getD_eq_getElem?_getD, List.getElem?_take, if_pos h]

theorem getD_drop {α : Type} (m i : Nat) (d : α) (l : List α) :
    (l.drop m).getD i d = l.getD (m + i) d := by
  rw [List.getD_eq_getElem?_getD, List.getD_eq_getElem?_getD, List.getElem?_drop]

theorem fillChunkIds_length (f : Nat) : ∀ (os : List Obj) (k : Nat),
    (fillChunkIds f k os).length = os.length := by
  intro os
  induction os with
  | nil => intro k; rfl
  | cons o os ih =>
    intro k
    by_cases h : o.id > 0 <;> simp [fillChunkIds, h, ih]

theorem fillChunkIds_getD (f : Nat) : ∀ (os : List Obj) (k i : Nat), i < os.length →
    (fillChunkIds f k os).getD i 0 =
      if (os.getD i ⟨0⟩).id > 0 then (os.getD i ⟨0⟩).id
      else f + k + numNew (os.take i) := by
  intro os
  induction os with
  | nil => intro k i h; exact absurd h (by simp)
  | cons o os ih =>
    intro k i h
    match i with
    | 0 =>
      by_cases h0 : o.id > 0 <;>
        simp [fillChunkIds, h0, numNew, List.getD_cons_zero]
    | i + 1 =>
      have h' : i < os.length := by simpa using h
      by_cases h0 : o.id > 0
      · have hne : ¬ o.id = 0 := by omega
        simp only [fillChunkIds, if_pos h0, List.getD_cons_succ, List.take_succ_cons,
          numNew, if_neg hne, ih k i h']
        split <;> omega
      · have he : o.id = 0 := by omega
        simp only [fillChunkIds, if_neg h0, List.getD_cons_succ, List.take_succ_cons,
          numNew, if_pos he, ih (k + 1) i h']
        split <;> omega

theorem numNew_pos : ∀ (os : List Obj) (i : Nat), i < os.length →
    (os.getD i ⟨0⟩).id = 0 → 0 < numNew os := by
  intro os
  induction os with
  | nil => intro i h; exact absurd h (by simp)
  | cons o os ih =>
    intro i h h0
    match i with
    | 0 =>
      rw [List.getD_cons_zero] at h0
      simp [numNew, h0]
    | i + 1 =>
      have h' : i < os.length := by simpa using h
      rw [List.getD_cons_succ] at h0
      have := ih i h' h0
      simp only [numNew]
      omega

theorem putManyIds_nil (alloc : Nat → Nat → Nat) (callIdx : Nat) :
    putManyIds alloc callIdx [] = [] := by
  rw [putManyIds]
  simp

theorem putManyIds_cons_eq (alloc : Nat → Nat → Nat) (callIdx : Nat) (objs : List Obj)
    (h : ¬ objs = []) :
    putManyIds alloc callIdx objs =
      fillChunkIds
          (if numNew (objs.take chunkSize) = 0 then 0
           else alloc callIdx (numNew (objs.take chunkSize))) 0 (objs.take chunkSize)
        ++ putManyIds alloc
            (if numNew (objs.take chunkSize) = 0 then callIdx else callIdx + 1)
            (objs.drop chunkSize) := by
  rw [putManyIds, dif_neg h]
  rfl

theorem putManyIds_length_aux : ∀ (n : Nat) (objs : List Obj), objs.length ≤ n →
    ∀ (alloc : Nat → Nat → Nat) (callIdx : Nat),
    (putManyIds alloc callIdx objs).length = objs.length := by
  intro n
  induction n with
  | zero =>
    intro objs h alloc callIdx
    have hnil : objs = [] := List.eq_nil_of_length_eq_zero (Nat.le_zero.mp h)
    subst hnil
    rw [putManyIds_nil]
    rfl
  | succ n ihn =>
    intro objs h alloc callIdx
    by_cases hnil : objs = []
    · subst hnil
      rw [putManyIds_nil]
      rfl
    · rw [putManyIds_cons_eq alloc callIdx objs hnil]
      have hc : 0 < chunkSize := by decide
      have hdrop : (objs.drop chunkSize).length ≤ n := by
        rw [List.length_drop]
        omega
      rw [List.length_append, fillChunkIds_length, ihn _ hdrop]
      rw [List.length_take, List.length_drop]
      have hp : 0 < objs.length := List.length_pos.mpr hnil
      omega

theorem chunkAt_zero (objs : List Obj) : chunkAt objs 0 = objs.take chunkSize := by
  simp [chunkAt]

theorem allocCallsBefore_succ (objs : List Obj) (callIdx j : Nat) :
    (if numNew (objs.take chunkSize) = 0 then callIdx else callIdx + 1)
      + allocCallsBefore (objs.drop chunkSize) j
    = callIdx + allocCallsBefore objs (j + 1) := by
  simp only [allocCallsBefore]
  split <;> omega

theorem chunkAt_drop (objs : List Obj) (c : Nat) :
    chunkAt (objs.drop chunkSize) c = chunkAt objs (c + 1) := by
  simp [chunkAt, List.drop_drop, Nat.mul_succ, Nat.add_comm]

theorem putManyIds_getD : ∀ (n : Nat) (objs : List Obj), objs.length ≤ n →
    ∀ (alloc : Nat → Nat → Nat) (callIdx i : Nat), i < objs.length →
    (putManyIds alloc callIdx objs).getD i 0 =
      if (objs.getD i ⟨0⟩).id > 0 then (objs.getD i ⟨0⟩).id
      else
        alloc (callIdx + allocCallsBefore objs (i / chunkSize))
            (numNew (chunkAt objs (i / chunkSize)))
          + numNew ((chunkAt objs (i / chunkSize)).take (i % chunkSize)) := by
  intro n
  induction n with
  | zero =>
    intro objs h alloc callIdx i hi
    omega
  | succ n ihn =>
    intro objs h alloc callIdx i hi
    have hnil : ¬ objs = [] := by
      intro he
      rw [he] at hi
      exact absurd hi (by simp)
    have hc : 0 < chunkSize := by decide
    rw [putManyIds_cons_eq alloc callIdx objs hnil]
    have hlen_take : (objs.take chunkSize).length = min chunkSize objs.length :=
      List.length_take chunkSize objs
    by_cases hlt : i < (objs.take chunkSize).length
    · -- position i falls into the first chunk
      rw [List.getD_append _ _ _ _ (by rw [fillChunkIds_length]; exact hlt)]
      rw [fillChunkIds_getD _ _ _ _ hlt]
      have hilt : i < chunkSize := by omega
      have hdiv : i / chunkSize = 0 := Nat.div_eq_of_lt hilt
      have hmod : i % chunkSize = i := Nat.mod_eq_of_lt hilt
      rw [hdiv, hmod, chunkAt_zero]
      have hgd : (objs.take chunkSize).getD i ⟨0⟩ = objs.getD i ⟨0⟩ :=
        getD_take_of_lt chunkSize i ⟨0⟩ objs hilt
      rw [hgd]
      simp only [allocCallsBefore, Nat.add_zero]
      by_cases hid : (objs.getD i ⟨0⟩).id > 0
      · simp only [if_pos hid]
      · rw [if_neg hid, if_neg hid]
        have hz : (objs.getD i ⟨0⟩).id = 0 := by omega
        have hzt : ((objs.take chunkSize).getD i ⟨0⟩).id = 0 := by rw [hgd]; exact hz
        have hpos := numNew_pos (objs.take chunkSize) i hlt hzt
        rw [if_neg (by omega)]
    · -- position i falls into a later chunk: use the induction hypothesis
      have hcslen : (objs.take chunkSize).length = chunkSize := by omega
      have hige : chunkSize ≤ i := by omega
      rw [List.getD_append_right _ _ _ _ (by rw [fillChunkIds_length]; omega)]
      rw [fillChunkIds_length]
      have hdroplen : (objs.drop chunkSize).length = objs.length - chunkSize :=
        List.length_drop chunkSize objs
      have hrest : (objs.drop chunkSize).length ≤ n := by omega
      have hj : i - (objs.take chunkSize).length < (objs.drop chunkSize).length := by omega
      rw [hcslen]
      rw [ihn (objs.drop chunkSize) hrest alloc
        (if numNew (objs.take chunkSize) = 0 then callIdx else callIdx + 1)
        (i - chunkSize) (by omega)]
      have e1 : (objs.drop chunkSize).getD (i - chunkSize) ⟨0⟩ = objs.getD i ⟨0⟩ := by
        rw [getD_drop]
        have heq : chunkSize + (i - chunkSize) = i := by omega
        rw [heq]
      have e2 : i / chunkSize = (i - chunkSize) / chunkSize + 1 := by
        have heq : i = (i - chunkSize) + chunkSize := by omega
        conv_lhs => rw [heq]
        rw [Nat.add_div_right _ hc]
      have e3 : i % chunkSize = (i - chunkSize) % chunkSize := by
        have heq : i = (i - chunkSize) + chunkSize := by omega
        conv_lhs => rw [heq]
        rw [Nat.add_mod_right]
      have e4 : chunkAt (objs.drop chunkSize) ((i - chunkSize) / chunkSize)
          = chunkAt objs ((i - chunkSize) / chunkSize + 1) := chunkAt_drop objs _
      have e5 := allocCallsBefore_succ objs callIdx ((i - chunkSize) / chunkSize)
      rw [e1, e4, e5, e2, e3]

/-- C1: PutMany returns one identifier per input object, in input order,
also across the boundaries of the fixed-size 10000-object chunks: at every
input position holding a nonzero id that id is returned unchanged, and
within each chunk the objects whose id is 0 receive consecutive new ids
from the single contiguous block the chunk obtained from the engine,
assigned in input order (the j-th zero-id object of a chunk gets the block
start plus j). -/
theorem PutMany_ids_ordered (alloc : Nat → Nat → Nat) (objs : List Obj) :
    (PutMany alloc objs).length = objs.length ∧
    ∀ (i : Nat), i < objs.length →
      (PutMany alloc objs).getD i 0 =
        if (objs.getD i ⟨0⟩).id > 0 then (objs.getD i ⟨0⟩).id
        else
          alloc (allocCallsBefore objs (i / chunkSize))
              (numNew (chunkAt objs (i / chunkSize)))
            + numNew ((chunkAt objs (i / chunkSize)).take (i % chunkSize)) := by
  constructor
  · exact putManyIds_length_aux objs.length objs le_rfl alloc 0
  · intro i hi
    have h := putManyIds_getD objs.length objs le_rfl alloc 0 i hi
    simpa using h

/-- Witness: PutMany on three objects, the middle one already persisted
under id 7, with the engine block allocator handing out block start 50. -/
theorem PutMany_ids_ordered_witness :
    (PutMany (fun _ _ => 50) [⟨0⟩, ⟨7⟩, ⟨0⟩]).length = 3 ∧
    (PutMany (fun _ _ => 50) [⟨0⟩, ⟨7⟩, ⟨0⟩]).getD 0 0 = 50 ∧
    (PutMany (fun _ _ => 50) [⟨0⟩, ⟨7⟩, ⟨0⟩]).getD 1 0 = 7 ∧
    (PutMany (fun _ _ => 50) [⟨0⟩, ⟨7⟩, ⟨0⟩]).getD 2 0 = 51 := by
  have h := PutMany_ids_ordered (fun _ _ => 50) [⟨0⟩, ⟨7⟩, ⟨0⟩]
  refine ⟨h.1, ?_, ?_, ?_⟩
  · exact (h.2 0 (by decide)).trans (by decide)
  · exact (h.2 1 (by decide)).trans (by decide)
  · exact (h.2 2 (by decide)).trans (by decide)

/-- Trace events of the single-id allocator idForPut: an
obx_box_id_for_put engine invocation, and the runtime.LockOSThread /
UnlockOSThread bracket around its retry. -/
inductive IdEv
  | engineCall
  | lockThread
  | unlockThread
deriving DecidableEq, Repr

/-- Result of the modelled idForPut: the returned id, the error, and the
trace of engine/thread events in execution order. -/
structure IdForPutRes where
  id : Nat
  err : Option String
  tr : List IdEv
deriving DecidableEq, Repr

/-- Model of idForPut (box.go lines 111-126).  resp n is the id returned by
the (n+1)-th obx_box_id_for_put engine invocation issued by this call, with
0 signalling failure; cerr is the error detail createError retrieves for
the calling thread.  On a 0 result the call is retried exactly once between
runtime.LockOSThread and runtime.UnlockOSThread, so that the error state
read afterwards belongs to this call. -/
def idForPut (resp : Nat → Nat) (cerr : String) : IdForPutRes :=
  let id := resp 0
  if id = 0 then
    let id2 := resp 1
    if id2 = 0 then
      { id := 0, err := some cerr
        tr := [.engineCall, .lockThread, .engineCall, .unlockThread] }
    else
      { id := id2, err := none
        tr := [.engineCall, .lockThread, .engineCall, .unlockThread] }
  else
    { id := id, err := none, tr := [.engineCall] }

/-- C8: the single-id allocator invokes the engine allocation primitive
exactly once when the first invocation returns a nonzero id, and exactly
twice — the retry bracketed by an exclusive binding of the calling OS
thread — when the first invocation returns 0; an error is returned if and
only if both invocations return 0, and a successful retry returns the
retried id with no error. -/
theorem idForPut_retry (resp : Nat → Nat) (cerr : String) :
    (resp 0 ≠ 0 →
      (idForPut resp cerr).tr = [.engineCall] ∧
      (idForPut resp cerr).err = none ∧ (idForPut resp cerr).id = resp 0) ∧
    (resp 0 = 0 →
      (idForPut resp cerr).tr
        = [.engineCall, .lockThread, .engineCall, .unlockThread]) ∧
    ((idForPut resp cerr).tr.count .engineCall
      = if resp 0 = 0 then 2 else 1) ∧
    ((idForPut resp cerr).err.isSome ↔ resp 0 = 0 ∧ resp 1 = 0) ∧
    (resp 0 = 0 → resp 1 ≠ 0 →
      (idForPut resp cerr).id = resp 1 ∧ (idForPut resp cerr).err = none) := by
  by_cases h0 : resp 0 = 0
  · by_cases h1 : resp 1 = 0 <;>
      simp [idForPut, h0, h1, List.count_cons]
  · simp [idForPut, h0, List.count_cons]

/-- Witness: first engine invocation fails (0), the locked retry returns 9. -/
theorem idForPut_retry_witness :
    (idForPut (fun n => if n = 0 then 0 else 9) "errdetail").id = 9 ∧
    (idForPut (fun n => if n = 0 then 0 else 9) "errdetail").err = none ∧
    (idForPut (fun n => if n = 0 then 0 else 9) "errdetail").tr
      = [.engineCall, .lockThread, .engineCall, .unlockThread] := by
  have h := idForPut_retry (fun n => if n = 0 then 0 else 9) "errdetail"
  exact ⟨(h.2.2.2.2 (by decide) (by decide)).1,
    (h.2.2.2.2 (by decide) (by decide)).2, h.2.1 (by decide)⟩

/-- Write mode of the single-object put pipeline (OBXPutMode: cPutModePut,
cPutModeInsert, cPutModeUpdate). -/
inductive PutMode
  | put
  | insert
  | update
deriving DecidableEq, Repr

/-- Engine-side events of the single-object put pipeline: id allocation
(idForPut), relation fan-out writes (binding.PutRelated), the encode of the
object (binding.Flatten), and the obx_box_put5 write. -/
inductive PEv
  | alloc
  | putRelated
  | encode
  | enginePut
deriving DecidableEq, Repr

/-- Collaborators of the put pipeline, modelled by their outcomes: the
object binding (GetId, SetId, Flatten) and the engine primitives (idForPut
allocation, obx_box_put5 write, relation fan-out). -/
structure PutEnv (O : Type) where
  getId : O → Except String Nat
  setId : O → Nat → Option String
  allocId : Nat → Except String Nat
  putRelated : O → Nat → Option String
  flatten : O → Nat → Option String
  enginePut : Nat → PutMode → Option String

/-- The error/trace behaviour of withObjectBytes (box.go 197-214) as seen
by putOne: Flatten the object, and only when that succeeds run the fn
callback (the obx_box_put5 write).  The encoder pooling itself is modelled
separately by withObjectBytes below. -/
def withObjectBytesEv {O : Type} (env : PutEnv O) (obj : O) (id : Nat) (mode : PutMode) :
    Option String × List PEv :=
  match env.flatten obj id with
  | some e => (some e, [.encode])
  | none =>
    match env.enginePut id mode with
    | some e => (some e, [.encode, .enginePut])
    | none => (none, [.encode, .enginePut])

/-- Model of putOne (box.go 183-195): relation fan-out first when the
entity has relations, then encode and write. -/
def putOne {O : Type} (env : PutEnv O) (hasRelations : Bool) (id : Nat) (obj : O)
    (mode : PutMode) : Option String × List PEv :=
  if hasRelations then
    match env.putRelated obj id with
    | some e => (some e, [.putRelated])
    | none =>
      let r := withObjectBytesEv env obj id mode
      (r.1, .putRelated :: r.2)
  else withObjectBytesEv env obj id mode

/-- RunInWriteTx brackets its callback in a write transaction and returns
the callback error unchanged to the caller (rollback on error, commit
otherwise), so at the level of returned values it is the identity. -/
def runInWriteTx (body : Option String × List PEv) : Option String × List PEv :=
  body

/-- Error message of put for update mode with id 0 (box.go line 153; the
source text reads: cannot update an object with ID 0 - if it is a new
object use Put or Insert instead). -/
def updateZeroIdMsg : String :=
  "cannot update an object with ID 0 - if it is a new object use Put or Insert instead"

/-- Second half of put (box.go lines 162-180): run putOne (inside a fresh
write transaction when the entity has relations and the caller is not
already in one), then write the resolved id back onto the object when it
changed, and zero the returned id on any error. -/
def putFinish {O : Type} (env : PutEnv O) (hasRelations alreadyInTx : Bool)
    (idFromObject id : Nat) (obj : O) (mode : PutMode) :
    Nat × Option String × List PEv :=
  let r :=
    if hasRelations ∧ ¬ alreadyInTx then runInWriteTx (putOne env hasRelations id obj mode)
    else putOne env hasRelations id obj mode
  let err :=
    match r.1 with
    | some e => some e
    | none => if idFromObject ≠ id then env.setId obj id else none
  match err with
  | some e => (0, some e, r.2)
  | none => (id, none, r.2)

/-- Model of put (box.go lines 144-181): read the id from the object via
the binding; for update mode require it nonzero (before any engine call),
otherwise resolve the final id through the allocator; then write and
finish.  Returns (id, error, engine trace). -/
def put {O : Type} (env : PutEnv O) (hasRelations alreadyInTx : Bool) (obj : O)
    (mode : PutMode) : Nat × Option String × List PEv :=
  match env.getId obj with
  | .error e => (0, some e, [])
  | .ok idFromObject =>
    if mode = PutMode.update then
      if idFromObject = 0 then (0, some updateZeroIdMsg, [])
      else putFinish env hasRelations alreadyInTx idFromObject idFromObject obj mode
    else
      match env.allocId idFromObject with
      | .error e => (0, some e, [.alloc])
      | .ok id =>
        let r := putFinish env hasRelations alreadyInTx idFromObject id obj mode
        (r.1, r.2.1, .alloc :: r.2.2)

theorem putFinish_error_zero {O : Type} (env : PutEnv O) (hasRelations alreadyInTx : Bool)
    (idFromObject id : Nat) (obj : O) (mode : PutMode) :
    ((putFinish env hasRelations alreadyInTx idFromObject id obj mode).2.1).isSome →
    (putFinish env hasRelations alreadyInTx idFromObject id obj mode).1 = 0 := by
  unfold putFinish runInWriteTx
  rw [ite_self]
  rcases h1 : (putOne env hasRelations id obj mode).1 with _ | e
  · by_cases hne : idFromObject ≠ id
    · rcases h2 : env.setId obj id with _ | e2 <;>
        simp [h1, hne, h2]
    · simp [h1, hne]
  · simp [h1]

/-- C3: for every single-object write through the put pipeline (Put, Insert
or Update), if the operation fails for any reason the returned identifier
is zero — also when the failure happens after an id was already resolved or
consumed from the engine allocation sequence. -/
theorem put_error_returns_zero {O : Type} (env : PutEnv O) (hasRelations alreadyInTx : Bool)
    (obj : O) (mode : PutMode) :
    ((put env hasRelations alreadyInTx obj mode).2.1).isSome →
    (put env hasRelations alreadyInTx obj mode).1 = 0 := by
  unfold put
  cases hget : env.getId obj with
  | error e => intro _; rfl
  | ok idFromObject =>
    dsimp only
    by_cases hm : mode = PutMode.update
    · rw [if_pos hm]
      by_cases h0 : idFromObject = 0
      · rw [if_pos h0]
        intro _
        rfl
      · rw [if_neg h0]
        exact putFinish_error_zero env hasRelations alreadyInTx idFromObject idFromObject obj mode
    · rw [if_neg hm]
      cases halloc : env.allocId idFromObject with
      | error e => intro _; rfl
      | ok id =>
        dsimp only
        intro h
        exact putFinish_error_zero env hasRelations alreadyInTx idFromObject id obj mode
          (by simpa using h)

/-- An environment where the engine write itself fails: everything before
the obx_box_put5 call succeeds (the id 77 is allocated and consumed), the
write reports a constraint violation. -/
def putEnvWriteFails : PutEnv Obj :=
  { getId := fun o => .ok o.id
    setId := fun _ _ => none
    allocId := fun c => .ok (if c = 0 then 77 else c)
    putRelated := fun _ _ => none
    flatten := fun _ _ => none
    enginePut := fun _ _ => some "unique constraint violated" }

/-- Witness: the engine write fails after id 77 was allocated; the returned
identifier is 0. -/
theorem put_error_returns_zero_witness :
    (((put putEnvWriteFails false false (⟨0⟩ : Obj) PutMode.put).2.1).isSome = true) ∧
    (put putEnvWriteFails false false (⟨0⟩ : Obj) PutMode.put).1 = 0 := by
  exact ⟨by decide, put_error_returns_zero putEnvWriteFails false false ⟨0⟩ PutMode.put (by decide)⟩

/-- C4: Update on an object whose id field is 0 fails immediately with the
descriptive error message, before any engine interaction: no id allocation,
no encode, no engine write (the engine trace is empty). -/
theorem update_zero_id_rejected {O : Type} (env : PutEnv O) (hasRelations alreadyInTx : Bool)
    (obj : O) (h : env.getId obj = .ok 0) :
    put env hasRelations alreadyInTx obj PutMode.update = (0, some updateZeroIdMsg, []) := by
  unfold put
  rw [h]
  simp

/-- Witness: Update of a zero-id object in an environment whose engine
write would even fail; the guard fires first and nothing is called. -/
theorem update_zero_id_rejected_witness :
    put putEnvWriteFails false false (⟨0⟩ : Obj) PutMode.update
      = (0, some updateZeroIdMsg, []) :=
  update_zero_id_rejected putEnvWriteFails false false ⟨0⟩ rfl

/-- The pool retention bound of the encode pool (box.go line 208): builders
whose byte buffer capacity reaches 1 MiB are not returned to the pool. -/
def fbbSizeLimit : Nat := 1024 * 1024

/-- Model of withObjectBytes (box.go 197-214) as a transformer of the
encoder pool, an encoder abstracted to its buffer capacity.  fbbPool.Get
takes a pooled builder when one is available (a fresh one otherwise, which
pool.tail also models: tail of the empty pool is empty); grownCap is
cap(fbb.Bytes) after Flatten/Finish have grown the buffer; flattenErr and
fnErr are the outcomes of binding.Flatten and of the fn callback (the
engine write), fn running only when Flatten succeeded.  The source has no
early return: the pool check runs on every exit path, and the builder is
put back exactly when its capacity is below the limit. -/
def withObjectBytes (pool : List Nat) (grownCap : Nat)
    (flattenErr fnErr : Option String) : Option String × List Nat :=
  let rest := pool.tail
  let err :=
    match flattenErr with
    | some e => some e
    | none => fnErr
  let pool2 := if grownCap < fbbSizeLimit then grownCap :: rest else rest
  (err, pool2)

/-- C9: on every exit path of withObjectBytes — encode failure, engine
write failure, or success — the used encoder is returned to the pool
exactly when its buffer capacity is below the 1 MiB threshold and is
discarded otherwise; hence a pool whose retained builders are all below
the threshold keeps that invariant, and the first error of the body is
propagated unchanged. -/
theorem withObjectBytes_pool (pool : List Nat) (grownCap : Nat)
    (flattenErr fnErr : Option String) :
    ((withObjectBytes pool grownCap flattenErr fnErr).2
      = if grownCap < fbbSizeLimit then grownCap :: pool.tail else pool.tail) ∧
    ((withObjectBytes pool grownCap flattenErr fnErr).1
      = match flattenErr with | some e => some e | none => fnErr) ∧
    ((∀ c ∈ pool, c < fbbSizeLimit) →
      ∀ c ∈ (withObjectBytes pool grownCap flattenErr fnErr).2, c < fbbSizeLimit) := by
  refine ⟨rfl, rfl, ?_⟩
  intro hp c hc
  simp only [withObjectBytes] at hc
  by_cases hlt : grownCap < fbbSizeLimit
  · rw [if_pos hlt] at hc
    rcases List.mem_cons.mp hc with h | h
    · rwa [h]
    · exact hp c (List.mem_of_mem_tail h)
  · rw [if_neg hlt] at hc
    exact hp c (List.mem_of_mem_tail hc)

/-- Witness: a pool of two small builders, an encode failure, and a used
capacity of 500000 bytes: the builder is still returned and the pool stays
below the limit. -/
theorem withObjectBytes_pool_witness :
    (∀ c ∈ [100, 200], c < fbbSizeLimit) ∧
    (∀ c ∈ (withObjectBytes [100, 200] 500000 (some "encode failed") none).2,
      c < fbbSizeLimit) := by
  have h := withObjectBytes_pool [100, 200] 500000 (some "encode failed") none
  exact ⟨by decide, h.2.2 (by decide)⟩

/-- Model of readManyObjects (box.go 553-587), Strategy A of the bulk read
(supportsResultArray): the engine returns a parallel array of byte buffers,
none marking an id that was not found (possible with GetMany); each non-nil
entry is decoded with binding.Load; when existingOnly is false a nil
placeholder is appended at the position of each missing entry, otherwise it
is skipped.  A decode error aborts the iteration and is returned in place
of a result. -/
def readManyObjects {B A : Type} (existingOnly : Bool) (load : B → Except String A) :
    List (Option B) → Except String (List (Option A))
  | [] => .ok []
  | none :: rest =>
    match readManyObjects existingOnly load rest with
    | .error e => .error e
    | .ok r => if existingOnly then .ok r else .ok (none :: r)
  | some b :: rest =>
    match load b with
    | .error e => .error e
    | .ok o =>
      match readManyObjects existingOnly load rest with
      | .error e => .error e
      | .ok r => .ok (some o :: r)

/-- Model of GetMany (box.go 501-515) on the bulk-array strategy: store is
the engine content (obx_box_get_many hands one optional byte buffer per
requested id), load is binding.Load. -/
def GetMany {B A : Type} (load : B → Except String A) (store : Nat → Option B)
    (ids : List Nat) : Except String (List (Option A)) :=
  readManyObjects false load (ids.map store)

/-- Model of GetManyExisting (box.go 521-535) on the bulk-array strategy. -/
def GetManyExisting {B A : Type} (load : B → Except String A) (store : Nat → Option B)
    (ids : List Nat) : Except String (List (Option A)) :=
  readManyObjects true load (ids.map store)

/-- The engine loop of obx_box_visit_many together with the registered data
visitor of readUsingVisitor (box.go 593-609): the engine feeds one optional
byte buffer per requested id to the visitor and stops as soon as the
visitor returns false; the visitor closure appends decoded objects (and,
unless existingOnly, nil placeholders for missing buffers) to the slice,
records the decode error in the captured err variable and returns false on
it.  Returns the accumulated slice, the recorded error, and whether the
iteration completed without being stopped. -/
def visitMany {B A : Type} (existingOnly : Bool) (load : B → Except String A) :
    List (Option B) → List (Option A) → List (Option A) × Option String × Bool
  | [], acc => (acc, none, true)
  | none :: rest, acc =>
    if existingOnly then visitMany existingOnly load rest acc
    else visitMany existingOnly load rest (acc ++ [none])
  | some b :: rest, acc =>
    match load b with
    | .error e => (acc, some e, false)
    | .ok o => visitMany existingOnly load rest (acc ++ [some o])

/-- Model of readUsingVisitor (box.go 590-631), Strategy B of the bulk
read.  rcOnStop is the status the aborted engine call reports when the
visitor stopped it (none models an engine call that reports success
anyway); err2 in the source is the error of the surrounding read
transaction, which is exactly that status.  The source checks err2 first
and returns the decode error recorded by the visitor only when err2 is nil
(box.go 624-630). -/
def readUsingVisitor {B A : Type} (existingOnly : Bool) (load : B → Except String A)
    (rcOnStop : Option String) (arr : List (Option B)) :
    Except String (List (Option A)) :=
  let r := visitMany existingOnly load arr []
  let err2 : Option String := if r.2.2 then none else rcOnStop
  match err2 with
  | some e2 => .error e2
  | none =>
    match r.2.1 with
    | some e => .error e
    | none => .ok r.1

theorem visitMany_acc {B A : Type} (existingOnly : Bool) (load : B → Except String A) :
    ∀ (arr : List (Option B)) (acc : List (Option A)),
    visitMany existingOnly load arr acc
      = (acc ++ (visitMany existingOnly load arr []).1,
         (visitMany existingOnly load arr []).2.1,
         (visitMany existingOnly load arr []).2.2) := by
  intro arr
  induction arr with
  | nil => intro acc; simp [visitMany]
  | cons x rest ih =>
    intro acc
    match x with
    | none =>
      cases existingOnly with
      | true =>
        have e1 : ∀ a, visitMany true load (none :: rest) a = visitMany true load rest a := by
          intro a
          simp [visitMany]
        rw [e1, e1, ih acc]
      | false =>
        have e1 : ∀ a, visitMany false load (none :: rest) a
            = visitMany false load rest (a ++ [none]) := by
          intro a
          simp [visitMany]
        rw [e1, e1, ih (acc ++ [none]), ih ([] ++ [none])]
        simp [List.append_assoc]
    | some b =>
      rcases hl : load b with e | o
      · have e1 : ∀ a, visitMany existingOnly load (some b :: rest) a = (a, some e, false) := by
          intro a
          simp [visitMany, hl]
        rw [e1, e1]
        simp
      · have e1 : ∀ a, visitMany existingOnly load (some b :: rest) a
            = visitMany existingOnly load rest (a ++ [some o]) := by
          intro a
          simp [visitMany, hl]
        rw [e1, e1, ih (acc ++ [some o]), ih ([] ++ [some o])]
        simp [List.append_assoc]

theorem readManyObjects_spec {B A : Type} (load : B → Except String A) :
    ∀ (arr : List (Option B)) (l : List (Option A)),
    readManyObjects false load arr = .ok l →
    l.length = arr.length ∧
    (∀ i, i < arr.length →
      (arr.getD i none = none → l.getD i none = none) ∧
      (∀ b, arr.getD i none = some b →
        ∃ o, load b = .ok o ∧ l.getD i none = some o)) ∧
    readManyObjects true load arr = .ok (l.reduceOption.map some) ∧
    visitMany false load arr [] = (l, none, true) ∧
    visitMany true load arr [] = (l.reduceOption.map some, none, true) := by
  intro arr
  induction arr with
  | nil =>
    intro l h
    have hl : l = [] := by
      simpa [readManyObjects] using h.symm
    subst hl
    refine ⟨rfl, ?_, rfl, rfl, rfl⟩
    intro i hi
    exact absurd hi (by simp)
  | cons x rest ih =>
    intro l h
    match x with
    | none =>
      rcases hrec : readManyObjects false load rest with e | r
      · rw [readManyObjects, hrec] at h
        exact absurd h (by simp)
      · rw [readManyObjects, hrec] at h
        simp only [Bool.false_eq_true, if_false] at h
        have hl : l = none :: r := by
          cases h
          rfl
        subst hl
        obtain ⟨ihlen, ihpt, ihro, ihvf, ihvt⟩ := ih r hrec
        refine ⟨by simp [ihlen], ?_, ?_, ?_, ?_⟩
        · intro i hi
          match i with
          | 0 =>
            constructor
            · intro _; rfl
            · intro b hb
              exact absurd hb (by simp)
          | i + 1 =>
            have hi' : i < rest.length := by simpa using hi
            simpa using ihpt i hi'
        · rw [readManyObjects, ihro]
          simp
        · rw [show visitMany false load (none :: rest) []
              = visitMany false load rest [none] from by simp [visitMany]]
          rw [visitMany_acc false load rest [none], ihvf]
          simp
        · rw [show visitMany true load (none :: rest) []
              = visitMany true load rest [] from by simp [visitMany]]
          rw [ihvt]
          simp
    | some b =>
      rcases hload : load b with e | o
      · rw [readManyObjects, hload] at h
        exact absurd h (by simp)
      · rcases hrec : readManyObjects false load rest with e | r
        · rw [readManyObjects, hload, hrec] at h
          exact absurd h (by simp)
        · rw [readManyObjects, hload, hrec] at h
          have hl : l = some o :: r := by
            cases h
            rfl
          subst hl
          obtain ⟨ihlen, ihpt, ihro, ihvf, ihvt⟩ := ih r hrec
          refine ⟨by simp [ihlen], ?_, ?_, ?_, ?_⟩
          · intro i hi
            match i with
            | 0 =>
              constructor
              · intro hb
                exact absurd hb (by simp)
              · intro b2 hb2
                have hbb : b2 = b := by
                  rw [List.getD_cons_zero] at hb2
                  exact (Option.some.injEq _ _ ▸ hb2).symm
                subst hbb
                exact ⟨o, hload, rfl⟩
            | i + 1 =>
              have hi' : i < rest.length := by simpa using hi
              simpa using ihpt i hi'
          · rw [readManyObjects, hload, ihro]
            simp
          · rw [show visitMany false load (some b :: rest) []
                = visitMany false load rest [some o] from by simp [visitMany, hload]]
            rw [visitMany_acc false load rest [some o], ihvf]
            simp
          · rw [show visitMany true load (some b :: rest) []
                = visitMany true load rest [some o] from by simp [visitMany, hload]]
            rw [visitMany_acc true load rest [some o], ihvt]
            simp

/-- C7: for every requested id sequence, GetMany returns one entry per
requested id in input order with a nil placeholder at the position of every
missing id, while GetManyExisting on the same input returns exactly the
decoded objects of the ids that exist, in order, skipping the missing ones
— so its result can be shorter than the input; this holds on the
bulk-array strategy (readManyObjects) and equally on the visitor strategy
(readUsingVisitor). -/
theorem GetMany_GetManyExisting_spec {B A : Type} (load : B → Except String A)
    (store : Nat → Option B) (ids : List Nat) (l : List (Option A))
    (h : GetMany load store ids = .ok l) :
    l.length = ids.length ∧
    (∀ i, i < ids.length →
      (store (ids.getD i 0) = none → l.getD i none = none) ∧
      (∀ b, store (ids.getD i 0) = some b →
        ∃ o, load b = .ok o ∧ l.getD i none = some o)) ∧
    GetManyExisting load store ids = .ok (l.reduceOption.map some) ∧
    l.reduceOption.length ≤ ids.length ∧
    (∀ rc, readUsingVisitor false load rc (ids.map store) = .ok l) ∧
    (∀ rc, readUsingVisitor true load rc (ids.map store)
      = .ok (l.reduceOption.map some)) := by
  obtain ⟨hlen, hpt, hro, hvf, hvt⟩ := readManyObjects_spec load (ids.map store) l h
  have hmaplen : (ids.map store).length = ids.length := List.length_map ids store
  have hmap : ∀ i, i < ids.length → (ids.map store).getD i none = store (ids.getD i 0) := by
    intro i hi
    rw [List.getD_eq_getElem?_getD, List.getElem?_map, List.getElem?_eq_getElem hi]
    rw [List.getD_eq_getElem?_getD, List.getElem?_eq_getElem hi]
    rfl
  refine ⟨by rw [hlen, hmaplen], ?_, hro, ?_, ?_, ?_⟩
  · intro i hi
    have hpi := hpt i (by rw [hmaplen]; exact hi)
    rw [hmap i hi] at hpi
    exact hpi
  · have h1 : l.reduceOption.length ≤ l.length := by
      simpa [List.reduceOption] using List.length_filterMap_le id l
    omega
  · intro rc
    unfold readUsingVisitor
    rw [hvf]
    rfl
  · intro rc
    unfold readUsingVisitor
    rw [hvt]
    rfl


/-- Witness: ids [1, 2], id 1 stored (decoding to 11), id 2 missing. -/
theorem GetMany_GetManyExisting_spec_witness :
    GetMany (fun b : Nat => (Except.ok (b + 1) : Except String Nat))
        (fun i => if i = 1 then some 10 else none) [1, 2]
      = .ok [some 11, none] ∧
    GetManyExisting (fun b : Nat => (Except.ok (b + 1) : Except String Nat))
        (fun i => if i = 1 then some 10 else none) [1, 2]
      = .ok [some 11] ∧
    ([some 11, none] : List (Option Nat)).getD 1 none = none := by
  have h := GetMany_GetManyExisting_spec
    (fun b : Nat => (Except.ok (b + 1) : Except String Nat))
    (fun i => if i = 1 then some 10 else none) [1, 2] [some 11, none] rfl
  exact ⟨rfl, h.2.2.1, (h.2.1 1 (by decide)).1 (by decide)⟩

/-- C2 counterexample: the visitor records the decode error and stops; the
aborted engine call reports a transaction-level error; readUsingVisitor
returns the transaction-level error, not the decode error, so the decode
error does not take precedence. -/
theorem readUsingVisitor_decode_error_loses :
    readUsingVisitor false
        (fun _ : Nat => (Except.error "decode failed" : Except String Nat))
        (some "transaction failed") [some 0]
      = Except.error "transaction failed" ∧
    (Except.error "transaction failed" : Except String (List (Option Nat)))
      ≠ Except.error "decode failed" := by
  constructor
  · rfl
  · intro h
    injection h with h2
    exact absurd h2 (by decide)

/-- C2 amended: in readUsingVisitor, when the per-record callback stops on
a decode error, the error returned to the caller is the transaction-level
error of the aborted engine call whenever that call reports one; the decode
error recorded by the callback is returned only when the engine call
reports no error. -/
theorem readUsingVisitor_error_precedence {B A : Type} (existingOnly : Bool)
    (load : B → Except String A) (rcOnStop : Option String) (arr : List (Option B))
    (slice : List (Option A)) (e : String)
    (h : visitMany existingOnly load arr [] = (slice, some e, false)) :
    readUsingVisitor existingOnly load rcOnStop arr
      = .error (rcOnStop.getD e) := by
  unfold readUsingVisitor
  rw [h]
  rcases rcOnStop with _ | e2 <;> simp

/-- Witness: with an engine call that reports success on the stop, the
decode error is the one returned. -/
theorem readUsingVisitor_error_precedence_witness :
    readUsingVisitor false
        (fun _ : Nat => (Except.error "decode failed" : Except String Nat))
        none [some 0]
      = Except.error "decode failed" :=
  readUsingVisitor_error_precedence false
    (fun _ : Nat => (Except.error "decode failed" : Except String Nat))
    none [some 0] [] "decode failed" rfl

/-- Engine events of RelationReplace: the existing-target-ids lookup
(obx_box_rel_get_ids via RelationIds), a Put of an unsaved target object
(which assigns it the shown new id), a link insertion (obx_box_rel_put)
and a link removal (obx_box_rel_remove). -/
inductive RelEv
  | getIds
  | putTarget (newId : Nat)
  | linkPut (targetId : Nat)
  | linkRemove (targetId : Nat)
deriving DecidableEq, Repr

/-- The engine state RelationReplace touches: the target ids currently
linked to the given (relation, sourceId) pair, and the next id the target
box allocator hands to an inserted target object. -/
structure RelState where
  links : List Nat
  nextId : Nat
deriving DecidableEq, Repr

/-- Key insertion into the idsToRemove map (a map[uint64]bool in the
source): a key is recorded at most once. -/
def mapInsert (m : List Nat) (k : Nat) : List Nat :=
  if k ∈ m then m else m ++ [k]

/-- The per-target loop of RelationReplace (box.go 711-738): resolve the
target id, inserting the object through the target box Put when the id is
0 (the allocator assigns nextId); a target found in idsToRemove survives
unchanged and is only deleted from that map, any other target gets a new
link (obx_box_rel_put has set semantics on the link set).  Arguments:
remaining targets, target-box allocator state, link set, idsToRemove map,
event trace. -/
def rrProcessTargets :
    List Nat → Nat → List Nat → List Nat → List RelEv →
      Nat × List Nat × List Nat × List RelEv
  | [], nextId, links, toRemove, tr => (nextId, links, toRemove, tr)
  | t :: ts, nextId, links, toRemove, tr =>
    let rId := if t = 0 then nextId else t
    let nextId2 := if t = 0 then nextId + 1 else nextId
    let tr2 := if t = 0 then tr ++ [RelEv.putTarget nextId] else tr
    if rId ∈ toRemove then
      rrProcessTargets ts nextId2 links (toRemove.erase rId) tr2
    else
      rrProcessTargets ts nextId2 (mapInsert links rId) toRemove
        (tr2 ++ [RelEv.linkPut rId])

/-- The removal loop of RelationReplace (box.go 742-746): remove the link
of every id remaining in idsToRemove. -/
def rrRemoveLeftovers : List Nat → List Nat → List RelEv → List Nat × List RelEv
  | [], links, tr => (links, tr)
  | r :: rs, links, tr =>
    rrRemoveLeftovers rs (links.erase r) (tr ++ [RelEv.linkRemove r])

/-- Error message of the nil-collection guard (box.go 686-688; apostrophes
of the source text elided). -/
def relNilSliceMsg (relId : Nat) : String :=
  "given NIL instead of an empty slice of target objects for relation ID " ++
    toString relId ++
    " - this is forbidden for updates due to potential code logic problems " ++
    "you may encounter when using lazy-loaded relations; pass an empty slice " ++
    "if you really want to remove all related entities"

/-- Model of RelationReplace (box.go 670-750).  objId is the id that
binding.GetId reads from the sourceObject argument; sourceId is the
separate sourceId argument under which existing links are looked up
(RelationIds) and links are written; targets is the desired target
collection, none modelling a nil slice, each desired target given by its
current binding id (0 = unsaved).  st.links is the stored link set of
(relation, sourceId).  Returns the error, the final engine state and the
event trace; the guard error fires before the write transaction opens, and
the modelled collaborators do not fail, so a returned error leaves the
state untouched and the trace empty. -/
def RelationReplace (relId : Nat) (st : RelState) (objId sourceId : Nat)
    (targets : Option (List Nat)) : Option String × RelState × List RelEv :=
  if targets.isNone ∧ objId ≠ 0 then (some (relNilSliceMsg relId), st, [])
  else
    let ts := targets.getD []
    let pre : List Nat × List RelEv :=
      if objId ≠ 0 then (st.links.foldl mapInsert [], [RelEv.getIds]) else ([], [])
    let r := rrProcessTargets ts st.nextId st.links pre.1 pre.2
    let fin := rrRemoveLeftovers r.2.2.1 r.2.1 r.2.2.2
    (none, { links := fin.1, nextId := r.1 }, fin.2)

theorem foldl_mapInsert_nodup : ∀ (l acc : List Nat), (acc ++ l).Nodup →
    List.foldl mapInsert acc l = acc ++ l := by
  intro l
  induction l with
  | nil => intro acc h; simp
  | cons x xs ih =>
    intro acc h
    have hx : x ∉ acc := by
      have hd := List.nodup_append.mp h
      intro hmem
      exact hd.2.2 hmem (List.mem_cons_self x xs)
    have hstep : mapInsert acc x = acc ++ [x] := by
      simp [mapInsert, hx]
    have hre : acc ++ x :: xs = (acc ++ [x]) ++ xs := by simp
    rw [List.foldl_cons, hstep, ih (acc ++ [x]) (by rw [← hre]; exact h), hre]

theorem mem_mapInsert_of_mem {m : List Nat} {t : Nat} (k : Nat) (h : t ∈ m) :
    t ∈ mapInsert m k := by
  unfold mapInsert
  split
  · exact h
  · exact List.mem_append_left _ h

theorem rrProcessTargets_cons_nonzero {t : Nat} (ht : t ≠ 0) (ts : List Nat)
    (nextId : Nat) (links toRemove : List Nat) (tr : List RelEv) :
    rrProcessTargets (t :: ts) nextId links toRemove tr
      = if t ∈ toRemove then rrProcessTargets ts nextId links (toRemove.erase t) tr
        else rrProcessTargets ts nextId (mapInsert links t) toRemove
          (tr ++ [RelEv.linkPut t]) := by
  simp [rrProcessTargets, ht]

theorem rrProcessTargets_cons_zero (ts : List Nat) (nextId : Nat)
    (links toRemove : List Nat) (tr : List RelEv) :
    rrProcessTargets (0 :: ts) nextId links toRemove tr
      = if nextId ∈ toRemove then
          rrProcessTargets ts (nextId + 1) links (toRemove.erase nextId)
            (tr ++ [RelEv.putTarget nextId])
        else rrProcessTargets ts (nextId + 1) (mapInsert links nextId) toRemove
          (tr ++ [RelEv.putTarget nextId] ++ [RelEv.linkPut nextId]) := by
  simp [rrProcessTargets]

theorem rrProcessTargets_idem : ∀ (ts : List Nat) (nextId : Nat) (links : List Nat)
    (tr : List RelEv), ts.Nodup → 0 ∉ ts →
    rrProcessTargets ts nextId links ts tr = (nextId, links, [], tr) := by
  intro ts
  induction ts with
  | nil => intro nextId links tr hnd h0; rfl
  | cons t ts ih =>
    intro nextId links tr hnd h0
    have ht0 : t ≠ 0 := by
      intro he
      exact h0 (he ▸ List.mem_cons_self t ts)
    rw [rrProcessTargets_cons_nonzero ht0]
    rw [if_pos (List.mem_cons_self t ts), List.erase_cons_head]
    exact ih nextId links tr (List.Nodup.of_cons hnd) (fun hm => h0 (List.mem_cons_of_mem t hm))

theorem rrRemoveLeftovers_all : ∀ (l : List Nat) (tr : List RelEv), l.Nodup →
    rrRemoveLeftovers l l tr = ([], tr ++ l.map RelEv.linkRemove) := by
  intro l
  induction l with
  | nil => intro tr hnd; simp [rrRemoveLeftovers]
  | cons r rs ih =>
    intro tr hnd
    show rrRemoveLeftovers rs ((r :: rs).erase r) (tr ++ [RelEv.linkRemove r])
      = ([], tr ++ (r :: rs).map RelEv.linkRemove)
    rw [List.erase_cons_head, ih (tr ++ [RelEv.linkRemove r]) (List.Nodup.of_cons hnd)]
    simp

theorem rrProcessTargets_absent (t : Nat) : ∀ (ts : List Nat) (nextId : Nat)
    (links toRemove : List Nat) (tr : List RelEv), 0 ∉ ts → t ∉ ts → t ∉ toRemove →
    t ∉ (rrProcessTargets ts nextId links toRemove tr).2.2.1 ∧
    (RelEv.linkPut t ∈ (rrProcessTargets ts nextId links toRemove tr).2.2.2 →
      RelEv.linkPut t ∈ tr) ∧
    (t ∈ links → t ∈ (rrProcessTargets ts nextId links toRemove tr).2.1) := by
  intro ts
  induction ts with
  | nil =>
    intro nextId links toRemove tr h0 hts hrem
    exact ⟨hrem, fun h => h, fun h => h⟩
  | cons s ts ih =>
    intro nextId links toRemove tr h0 hts hrem
    have hs0 : ¬ s = 0 := by
      intro he
      exact h0 (he ▸ List.mem_cons_self s ts)
    have hst : t ≠ s := by
      intro he
      exact hts (he ▸ List.mem_cons_self s ts)
    have hts' : t ∉ ts := fun hm => hts (List.mem_cons_of_mem s hm)
    have h0' : 0 ∉ ts := fun hm => h0 (List.mem_cons_of_mem s hm)
    rw [rrProcessTargets_cons_nonzero hs0]
    by_cases hmem : s ∈ toRemove
    · rw [if_pos hmem]
      exact ih nextId links (toRemove.erase s) tr h0' hts'
        (fun hm => hrem (List.mem_of_mem_erase hm))
    · rw [if_neg hmem]
      obtain ⟨c1, c2, c3⟩ := ih nextId (mapInsert links s) toRemove
        (tr ++ [RelEv.linkPut s]) h0' hts' hrem
      refine ⟨c1, ?_, fun hm => c3 (mem_mapInsert_of_mem s hm)⟩
      intro hin
      rcases List.mem_append.mp (c2 hin) with h | h
      · exact h
      · exfalso
        have : RelEv.linkPut t = RelEv.linkPut s := List.mem_singleton.mp h
        injection this with hts2
        exact hst hts2

theorem rrProcessTargets_kept (t : Nat) : ∀ (ts : List Nat) (nextId : Nat)
    (links toRemove : List Nat) (tr : List RelEv), 0 ∉ ts → ts.Nodup →
    toRemove.Nodup → t ∈ ts → t ∈ toRemove →
    t ∉ (rrProcessTargets ts nextId links toRemove tr).2.2.1 ∧
    (RelEv.linkPut t ∈ (rrProcessTargets ts nextId links toRemove tr).2.2.2 →
      RelEv.linkPut t ∈ tr) ∧
    (t ∈ links → t ∈ (rrProcessTargets ts nextId links toRemove tr).2.1) := by
  intro ts
  induction ts with
  | nil =>
    intro nextId links toRemove tr h0 hnd hndRem hmem hrem
    exact absurd hmem (List.not_mem_nil t)
  | cons s ts ih =>
    intro nextId links toRemove tr h0 hnd hndRem hmem hrem
    have hs0 : ¬ s = 0 := by
      intro he
      exact h0 (he ▸ List.mem_cons_self s ts)
    have h0' : 0 ∉ ts := fun hm => h0 (List.mem_cons_of_mem s hm)
    rw [rrProcessTargets_cons_nonzero hs0]
    by_cases hst : s = t
    · subst hst
      rw [if_pos hrem]
      have hnotts : s ∉ ts := (List.nodup_cons.mp hnd).1
      have hnoterase : s ∉ toRemove.erase s := by
        intro hin
        have := (List.Nodup.mem_erase_iff hndRem).mp hin
        exact this.1 rfl
      exact rrProcessTargets_absent s ts nextId links (toRemove.erase s) tr h0' hnotts hnoterase
    · have htmem : t ∈ ts := by
        rcases List.mem_cons.mp hmem with h | h
        · exact absurd h.symm hst
        · exact h
      by_cases hmem2 : s ∈ toRemove
      · rw [if_pos hmem2]
        exact ih nextId links (toRemove.erase s) tr h0' (List.Nodup.of_cons hnd)
          (List.Nodup.erase s hndRem) htmem
          ((List.mem_erase_of_ne (fun he => hst he.symm)).mpr hrem)
      · rw [if_neg hmem2]
        obtain ⟨c1, c2, c3⟩ := ih nextId (mapInsert links s) toRemove
          (tr ++ [RelEv.linkPut s]) h0' (List.Nodup.of_cons hnd) hndRem htmem hrem
        refine ⟨c1, ?_, fun hm => c3 (mem_mapInsert_of_mem s hm)⟩
        intro hin
        rcases List.mem_append.mp (c2 hin) with h | h
        · exact h
        · exfalso
          have : RelEv.linkPut t = RelEv.linkPut s := List.mem_singleton.mp h
          injection this with hts2
          exact hst hts2.symm

theorem rrRemoveLeftovers_absent (t : Nat) : ∀ (rem links : List Nat) (tr : List RelEv),
    t ∉ rem →
    (RelEv.linkRemove t ∈ (rrRemoveLeftovers rem links tr).2 →
      RelEv.linkRemove t ∈ tr) ∧
    (t ∈ links → t ∈ (rrRemoveLeftovers rem links tr).1) := by
  intro rem
  induction rem with
  | nil => intro links tr h; exact ⟨fun h2 => h2, fun h2 => h2⟩
  | cons r rs ih =>
    intro links tr h
    have htr : t ≠ r := by
      intro he
      exact h (he ▸ List.mem_cons_self r rs)
    have h' : t ∉ rs := fun hm => h (List.mem_cons_of_mem r hm)
    obtain ⟨c1, c2⟩ := ih (links.erase r) (tr ++ [RelEv.linkRemove r]) h'
    refine ⟨?_, ?_⟩
    · intro hin
      rcases List.mem_append.mp (c1 hin) with h2 | h2
      · exact h2
      · exfalso
        have : RelEv.linkRemove t = RelEv.linkRemove r := List.mem_singleton.mp h2
        injection this with hts2
        exact htr hts2
    · intro hm
      exact c2 ((List.mem_erase_of_ne htr).mpr hm)

theorem rrProcessTargets_no_toRemove : ∀ (ts : List Nat) (nextId : Nat)
    (links : List Nat) (tr : List RelEv),
    (rrProcessTargets ts nextId links [] tr).2.2.1 = [] ∧
    (∀ e ∈ (rrProcessTargets ts nextId links [] tr).2.2.2,
      e ∈ tr ∨ (∃ x, e = RelEv.putTarget x) ∨ (∃ x, e = RelEv.linkPut x)) ∧
    (∀ x ∈ links, x ∈ (rrProcessTargets ts nextId links [] tr).2.1) := by
  intro ts
  induction ts with
  | nil =>
    intro nextId links tr
    exact ⟨rfl, fun e he => Or.inl he, fun x hx => hx⟩
  | cons t ts ih =>
    intro nextId links tr
    by_cases ht : t = 0
    · subst ht
      rw [rrProcessTargets_cons_zero, if_neg (List.not_mem_nil _)]
      obtain ⟨c1, c2, c3⟩ := ih (nextId + 1) (mapInsert links nextId)
        (tr ++ [RelEv.putTarget nextId] ++ [RelEv.linkPut nextId])
      refine ⟨c1, ?_, fun x hx => c3 x (mem_mapInsert_of_mem _ hx)⟩
      intro e he
      rcases c2 e he with h | h
      · rcases List.mem_append.mp h with h2 | h2
        · rcases List.mem_append.mp h2 with h3 | h3
          · exact Or.inl h3
          · exact Or.inr (Or.inl ⟨nextId, List.mem_singleton.mp h3⟩)
        · exact Or.inr (Or.inr ⟨_, List.mem_singleton.mp h2⟩)
      · exact Or.inr h
    · rw [rrProcessTargets_cons_nonzero ht, if_neg (List.not_mem_nil _)]
      obtain ⟨c1, c2, c3⟩ := ih nextId (mapInsert links t) (tr ++ [RelEv.linkPut t])
      refine ⟨c1, ?_, fun x hx => c3 x (mem_mapInsert_of_mem _ hx)⟩
      intro e he
      rcases c2 e he with h | h
      · rcases List.mem_append.mp h with h2 | h2
        · exact Or.inl h2
        · exact Or.inr (Or.inr ⟨_, List.mem_singleton.mp h2⟩)
      · exact Or.inr h

theorem rrRemoveLeftovers_linkPut (t : Nat) : ∀ (rem links : List Nat) (tr : List RelEv),
    RelEv.linkPut t ∈ (rrRemoveLeftovers rem links tr).2 → RelEv.linkPut t ∈ tr := by
  intro rem
  induction rem with
  | nil => intro links tr h; exact h
  | cons r rs ih =>
    intro links tr h
    have h2 := ih (links.erase r) (tr ++ [RelEv.linkRemove r]) h
    rcases List.mem_append.mp h2 with h3 | h3
    · exact h3
    · exact RelEv.noConfusion (List.mem_singleton.mp h3)

theorem rrProcessTargets_linkRemove (t : Nat) : ∀ (ts : List Nat) (nextId : Nat)
    (links toRemove : List Nat) (tr : List RelEv),
    RelEv.linkRemove t ∈ (rrProcessTargets ts nextId links toRemove tr).2.2.2 →
    RelEv.linkRemove t ∈ tr := by
  intro ts
  induction ts with
  | nil => intro nextId links toRemove tr h; exact h
  | cons s ts ih =>
    intro nextId links toRemove tr h
    by_cases hs : s = 0
    · subst hs
      rw [rrProcessTargets_cons_zero] at h
      by_cases hmem : nextId ∈ toRemove
      · rw [if_pos hmem] at h
        have h2 := ih (nextId + 1) links (toRemove.erase nextId)
          (tr ++ [RelEv.putTarget nextId]) h
        rcases List.mem_append.mp h2 with h3 | h3
        · exact h3
        · exact RelEv.noConfusion (List.mem_singleton.mp h3)
      · rw [if_neg hmem] at h
        have h2 := ih (nextId + 1) (mapInsert links nextId) toRemove
          (tr ++ [RelEv.putTarget nextId] ++ [RelEv.linkPut nextId]) h
        rcases List.mem_append.mp h2 with h3 | h3
        · rcases List.mem_append.mp h3 with h4 | h4
          · exact h4
          · exact RelEv.noConfusion (List.mem_singleton.mp h4)
        · exact RelEv.noConfusion (List.mem_singleton.mp h3)
    · rw [rrProcessTargets_cons_nonzero hs] at h
      by_cases hmem : s ∈ toRemove
      · rw [if_pos hmem] at h
        exact ih nextId links (toRemove.erase s) tr h
      · rw [if_neg hmem] at h
        have h2 := ih nextId (mapInsert links s) toRemove
          (tr ++ [RelEv.linkPut s]) h
        rcases List.mem_append.mp h2 with h3 | h3
        · exact h3
        · exact RelEv.noConfusion (List.mem_singleton.mp h3)

theorem RelationReplace_some (relId : Nat) (st : RelState) (objId sourceId : Nat)
    (ts : List Nat) (hobj : objId ≠ 0) :
    RelationReplace relId st objId sourceId (some ts)
      = (none,
         { links := (rrRemoveLeftovers
             (rrProcessTargets ts st.nextId st.links
               (List.foldl mapInsert [] st.links) [RelEv.getIds]).2.2.1
             (rrProcessTargets ts st.nextId st.links
               (List.foldl mapInsert [] st.links) [RelEv.getIds]).2.1
             (rrProcessTargets ts st.nextId st.links
               (List.foldl mapInsert [] st.links) [RelEv.getIds]).2.2.2).1,
           nextId := (rrProcessTargets ts st.nextId st.links
             (List.foldl mapInsert [] st.links) [RelEv.getIds]).1 },
         (rrRemoveLeftovers
             (rrProcessTargets ts st.nextId st.links
               (List.foldl mapInsert [] st.links) [RelEv.getIds]).2.2.1
             (rrProcessTargets ts st.nextId st.links
               (List.foldl mapInsert [] st.links) [RelEv.getIds]).2.1
             (rrProcessTargets ts st.nextId st.links
               (List.foldl mapInsert [] st.links) [RelEv.getIds]).2.2.2).2) := by
  unfold RelationReplace
  rw [if_neg (by simp)]
  dsimp only [Option.getD]
  rw [if_pos hobj]

theorem RelationReplace_some_zero (relId : Nat) (st : RelState) (sourceId : Nat)
    (ts : List Nat) :
    RelationReplace relId st 0 sourceId (some ts)
      = (none,
         { links := (rrRemoveLeftovers
             (rrProcessTargets ts st.nextId st.links [] []).2.2.1
             (rrProcessTargets ts st.nextId st.links [] []).2.1
             (rrProcessTargets ts st.nextId st.links [] []).2.2.2).1,
           nextId := (rrProcessTargets ts st.nextId st.links [] []).1 },
         (rrRemoveLeftovers
             (rrProcessTargets ts st.nextId st.links [] []).2.2.1
             (rrProcessTargets ts st.nextId st.links [] []).2.1
             (rrProcessTargets ts st.nextId st.links [] []).2.2.2).2) := by
  unfold RelationReplace
  rw [if_neg (by simp)]
  dsimp only [Option.getD]
  rw [if_neg (by simp)]

/-- C5: RelationReplace rejects a nil target collection with the
descriptive error when the source object already carries a nonzero binding
id, performing no mutation at all — no link read, creation or removal, no
transaction write (empty trace, state unchanged); when the binding id is 0
a nil collection is not rejected and the call succeeds, also touching
nothing. -/
theorem RelationReplace_nil_guard (relId : Nat) (st : RelState) (objId sourceId : Nat) :
    (objId ≠ 0 →
      RelationReplace relId st objId sourceId none
        = (some (relNilSliceMsg relId), st, [])) ∧
    (objId = 0 →
      RelationReplace relId st objId sourceId none = (none, st, [])) := by
  constructor
  · intro h
    unfold RelationReplace
    rw [if_pos ⟨rfl, h⟩]
  · intro h
    subst h
    unfold RelationReplace
    rw [if_neg (by simp)]
    rfl

/-- Witness: nil collection with a persisted source (id 9) is rejected and
mutates nothing; nil collection with an unsaved source (id 0) passes. -/
theorem RelationReplace_nil_guard_witness :
    RelationReplace 2 ⟨[8], 50⟩ 9 9 none = (some (relNilSliceMsg 2), ⟨[8], 50⟩, []) ∧
    RelationReplace 2 ⟨[8], 50⟩ 0 9 none = (none, ⟨[8], 50⟩, []) :=
  ⟨(RelationReplace_nil_guard 2 ⟨[8], 50⟩ 9 9).1 (by decide),
   (RelationReplace_nil_guard 2 ⟨[8], 50⟩ 0 9).2 rfl⟩

/-- C6: RelationReplace is a set reconciliation: with a desired target
list equal to the stored link set (all targets persisted, no duplicates)
it performs zero link insertions and zero link removals and leaves the
link set unchanged; with an explicit empty collection it removes exactly
the existing links; and a target present both before and after is never
link-inserted nor link-removed and stays linked. -/
theorem RelationReplace_set_reconciliation (relId : Nat) (st : RelState)
    (objId sourceId : Nat) (hobj : objId ≠ 0) (hnd : st.links.Nodup) :
    (0 ∉ st.links →
      RelationReplace relId st objId sourceId (some st.links)
        = (none, st, [RelEv.getIds])) ∧
    (RelationReplace relId st objId sourceId (some [])
      = (none, { links := [], nextId := st.nextId },
         RelEv.getIds :: st.links.map RelEv.linkRemove)) ∧
    (∀ ts t, 0 ∉ ts → ts.Nodup → t ∈ ts → t ∈ st.links →
      RelEv.linkPut t ∉ (RelationReplace relId st objId sourceId (some ts)).2.2 ∧
      RelEv.linkRemove t ∉ (RelationReplace relId st objId sourceId (some ts)).2.2 ∧
      t ∈ (RelationReplace relId st objId sourceId (some ts)).2.1.links) := by
  have hfold : List.foldl mapInsert [] st.links = st.links := by
    simpa using foldl_mapInsert_nodup st.links [] (by simpa using hnd)
  refine ⟨?_, ?_, ?_⟩
  · intro h0
    rw [RelationReplace_some relId st objId sourceId st.links hobj, hfold,
      rrProcessTargets_idem st.links st.nextId st.links [RelEv.getIds] hnd h0]
    rfl
  · rw [RelationReplace_some relId st objId sourceId [] hobj, hfold]
    dsimp only [rrProcessTargets]
    rw [rrRemoveLeftovers_all st.links [RelEv.getIds] hnd]
    rfl
  · intro ts t h0 hndts hts hlinks
    rw [RelationReplace_some relId st objId sourceId ts hobj, hfold]
    obtain ⟨k1, k2, k3⟩ := rrProcessTargets_kept t ts st.nextId st.links st.links
      [RelEv.getIds] h0 hndts hnd hts hlinks
    obtain ⟨r1, r2⟩ := rrRemoveLeftovers_absent t
      (rrProcessTargets ts st.nextId st.links st.links [RelEv.getIds]).2.2.1
      (rrProcessTargets ts st.nextId st.links st.links [RelEv.getIds]).2.1
      (rrProcessTargets ts st.nextId st.links st.links [RelEv.getIds]).2.2.2 k1
    refine ⟨?_, ?_, r2 (k3 hlinks)⟩
    · intro hin
      have h2 := k2 (rrRemoveLeftovers_linkPut t _ _ _ hin)
      rcases List.mem_singleton.mp h2 with h3
      exact RelEv.noConfusion h3
    · intro hin
      have h2 := rrProcessTargets_linkRemove t ts st.nextId st.links st.links
        [RelEv.getIds] (r1 hin)
      rcases List.mem_singleton.mp h2 with h3
      exact RelEv.noConfusion h3

/-- Witness: stored links {4, 5}, persisted source.  Replacing with [4, 5]
touches nothing; replacing with [] removes exactly the two links; target 4
survives untouched when replacing with [4, 9]. -/
theorem RelationReplace_set_reconciliation_witness :
    RelationReplace 1 ⟨[4, 5], 100⟩ 3 3 (some [4, 5])
      = (none, ⟨[4, 5], 100⟩, [RelEv.getIds]) ∧
    RelationReplace 1 ⟨[4, 5], 100⟩ 3 3 (some [])
      = (none, ⟨[], 100⟩, [RelEv.getIds, RelEv.linkRemove 4, RelEv.linkRemove 5]) ∧
    RelEv.linkPut 4 ∉ (RelationReplace 1 ⟨[4, 5], 100⟩ 3 3 (some [4, 9])).2.2 ∧
    RelEv.linkRemove 4 ∉ (RelationReplace 1 ⟨[4, 5], 100⟩ 3 3 (some [4, 9])).2.2 := by
  have h := RelationReplace_set_reconciliation 1 ⟨[4, 5], 100⟩ 3 3 (by decide) (by decide)
  have h3 := h.2.2 [4, 9] 4 (by decide) (by decide) (by decide) (by decide)
  exact ⟨h.1 (by decide), h.2.1, h3.1, h3.2.1⟩

/-- C10: in RelationReplace the nil guard and the decision to fetch
existing links read the id from the sourceObject via the binding, while
the link lookup, creation and removal use the separate sourceId argument:
whenever the binding id is 0 but sourceId has stored links, those links
are never fetched into the removal-candidate set (no ids lookup event) and
never removed — they all survive — whatever the desired target list is,
and the call reports no error. -/
theorem RelationReplace_binding_id_gates (relId : Nat) (st : RelState)
    (sourceId : Nat) (ts : List Nat) :
    RelEv.getIds ∉ (RelationReplace relId st 0 sourceId (some ts)).2.2 ∧
    (∀ x, RelEv.linkRemove x ∉ (RelationReplace relId st 0 sourceId (some ts)).2.2) ∧
    (∀ t, t ∈ st.links → t ∈ (RelationReplace relId st 0 sourceId (some ts)).2.1.links) ∧
    (RelationReplace relId st 0 sourceId (some ts)).1 = none := by
  obtain ⟨c1, c2, c3⟩ := rrProcessTargets_no_toRemove ts st.nextId st.links []
  rw [RelationReplace_some_zero relId st sourceId ts, c1]
  dsimp only [rrRemoveLeftovers]
  refine ⟨?_, ?_, fun t ht => c3 t ht, rfl⟩
  · intro hin
    rcases c2 RelEv.getIds hin with h | h | h
    · exact absurd h (List.not_mem_nil _)
    · obtain ⟨x, hx⟩ := h
      exact RelEv.noConfusion hx
    · obtain ⟨x, hx⟩ := h
      exact RelEv.noConfusion hx
  · intro x hin
    rcases c2 (RelEv.linkRemove x) hin with h | h | h
    · exact absurd h (List.not_mem_nil _)
    · obtain ⟨y, hy⟩ := h
      exact RelEv.noConfusion hy
    · obtain ⟨y, hy⟩ := h
      exact RelEv.noConfusion hy

/-- Witness: binding id 0, sourceId 3 with stored link {5}: the desired
list [7] neither triggers an ids lookup nor removes link 5. -/
theorem RelationReplace_binding_id_gates_witness :
    RelEv.getIds ∉ (RelationReplace 1 ⟨[5], 40⟩ 0 3 (some [7])).2.2 ∧
    RelEv.linkRemove 5 ∉ (RelationReplace 1 ⟨[5], 40⟩ 0 3 (some [7])).2.2 ∧
    5 ∈ (RelationReplace 1 ⟨[5], 40⟩ 0 3 (some [7])).2.1.links := by
  have h := RelationReplace_binding_id_gates 1 ⟨[5], 40⟩ 3 [7]
  exact ⟨h.1, h.2.1 5, h.2.2.1 5 (by decide)⟩

end ObjectboxGo
